import Mathlib

/-!
Formal model of the githublog feed builder (`src/feed-builder/index.ts`).

The builder is a batch pipeline: it enumerates blog document paths under
`repoDir` (only top-level directories matching `yearRegex`), sorts them by a
date extracted from the path with a regular expression, extracts a title and a
truncated description from each document, and renders one RSS document.

Modelling conventions:
* JS strings are modelled as Lean `String`s, operated on through their
  character lists (`String.data`); all operations are structural so that the
  kernel can evaluate them on concrete inputs.
* Promises are collapsed to `Except Unit`: a rejected promise is `.error ()`,
  `Promise.all` fails iff one entry fails (`promiseAll`).
* The filesystem is the interface the script actually uses: `readdir` and
  `readFile`, each fallible (`FS`).
-/

set_option maxRecDepth 100000

deriving instance DecidableEq for Except

/-- JS `path.join(a, b)` for a plain child entry name `b`, as used by the
builder when descending into a directory listing. -/
def pathJoin (a b : String) : String := a ++ "/" ++ b

/-- Test of `yearRegex = /^2[0-9]{3}$/` from the source: the whole string is a
`2` followed by exactly three ASCII digits ("only expect blogs written in this
millennium"). -/
def yearRegexTest (s : String) : Bool :=
  match s.data with
  | ['2', a, b, c] => a.isDigit && b.isDigit && c.isDigit
  | _ => false

/-- Filesystem interface used by the script: `fs.readdir` (names of directory
entries, in filesystem iteration order) and `fs.readFile`, both fallible. -/
structure FS where
  readdir : String → Except Unit (List String)
  readFile : String → Except Unit String

/-- Model of `Promise.all` over an ordered list of already-started promises:
succeeds with all results (in order) iff every entry succeeds. -/
def promiseAll : List (Except Unit α) → Except Unit (List α)
  | [] => .ok []
  | .error _ :: _ => .error ()
  | .ok a :: rest => (promiseAll rest).map (a :: ·)

/-- Model of `findBlogsInYearDir`: read the month directories of a year
directory, read every month's day directories into one flat list, then read
every day's blog entries into one flat list of full paths. -/
def findBlogsInYearDir (fs : FS) (yearDir : String) : Except Unit (List String) :=
  (fs.readdir yearDir).bind fun monthDirs =>
    (promiseAll (monthDirs.map fun month =>
      (fs.readdir (pathJoin yearDir month)).map fun days =>
        days.map (pathJoin (pathJoin yearDir month)))).bind fun monthIndexedDays =>
      (promiseAll (monthIndexedDays.flatten.map fun dayDir =>
        (fs.readdir dayDir).map fun blogEntries =>
          blogEntries.map (pathJoin dayDir))).map List.flatten

/-- Model of the discovery part of `main`: read the repository root, keep the
entries matching `yearRegex`, and flatten the per-year blog lists, in order. -/
def scanBlogs (fs : FS) (repoDir : String) : Except Unit (List String) :=
  (fs.readdir repoDir).bind fun results =>
    (promiseAll (((results.filter yearRegexTest).map (pathJoin repoDir)).map
      (findBlogsInYearDir fs))).map List.flatten

/-- Finite filesystem built from association lists: directory listings and
file contents; any other path fails (as a missing path does for `fs`). -/
def fsOfLists (dirs : List (String × List String)) (files : List (String × String)) : FS where
  readdir p :=
    match dirs.find? (fun e => e.1 == p) with
    | some e => .ok e.2
    | none => .error ()
  readFile p :=
    match files.find? (fun e => e.1 == p) with
    | some e => .ok e.2
    | none => .error ()

/-- Root directory for claim C7: one arbitrarily-named top-level entry that
does not match the year pattern (with arbitrary contents, given by `rest`),
and one blog document at `2023/1/1/x.ext`. -/
def fsC7 (junkName : String) (rest : String → Except Unit (List String)) : FS where
  readdir p :=
    if p = "/repo" then .ok [junkName, "2023"]
    else if p = "/repo/2023" then .ok ["1"]
    else if p = "/repo/2023/1" then .ok ["1"]
    else if p = "/repo/2023/1/1" then .ok ["x.ext"]
    else rest p
  readFile _ := .error ()

/-- C7: the scanner yields exactly the files under top-level directories whose
name matches the four-digit year pattern `2[0-9]{3}`; a root with one
non-year-named entry (of arbitrary contents) and one document at
`2023/1/1/x.ext` scans to exactly that document, without error. -/
theorem c7_scanner_ignores_nonyear_dirs (junkName : String)
    (rest : String → Except Unit (List String))
    (h : yearRegexTest junkName = false) :
    scanBlogs (fsC7 junkName rest) "/repo" = .ok ["/repo/2023/1/1/x.ext"] := by
  have h2023 : yearRegexTest "2023" = true := rfl
  have hroot : (fsC7 junkName rest).readdir "/repo" = .ok [junkName, "2023"] := rfl
  unfold scanBlogs
  rw [hroot]
  show (promiseAll (((List.filter yearRegexTest [junkName, "2023"]).map
      (pathJoin "/repo")).map (findBlogsInYearDir (fsC7 junkName rest)))).map
      List.flatten = _
  rw [List.filter_cons, List.filter_cons, h, h2023]
  rfl

/-- Closed witness for C7, at the concrete non-year entry name `"someassets"`
whose subtree always errors when read. -/
theorem c7_witness :
    scanBlogs (fsC7 "someassets" (fun _ => .error ())) "/repo" =
      .ok ["/repo/2023/1/1/x.ext"] :=
  c7_scanner_ignores_nonyear_dirs "someassets" (fun _ => .error ()) rfl

/-- Split of a character list on a separator, mirroring JS
`String.prototype.split` with a one-character separator (adjacent separators
yield empty pieces, as in JS). -/
def splitOnChar (sep : Char) : List Char → List (List Char)
  | [] => [[]]
  | c :: cs =>
    let r := splitOnChar sep cs
    if c = sep then [] :: r
    else
      match r with
      | [] => [[c]]
      | h :: t => (c :: h) :: t

/-- Join of pieces with a separator, mirroring `Array.prototype.join`. -/
def joinWith (sep : Char) : List (List Char) → List Char
  | [] => []
  | [l] => l
  | l :: ls => l ++ sep :: joinWith sep ls

/-- Join of line lists with `'\n'`, mirroring `Array.prototype.join('\n')`. -/
def joinNl : List (List Char) → List Char := joinWith '\n' 

/-- Model of JS `String.prototype.trim`: whitespace removed from both ends. -/
def jsTrim (l : List Char) : List Char :=
  ((l.dropWhile Char.isWhitespace).reverse.dropWhile Char.isWhitespace).reverse

/-- Modelled from the spec: the Plain-Text Reducer (spec 4.3), implemented in
the source as `remark().use(strip).process(text)` via the external `remark`
and `strip-markdown` libraries, which are not part of this repository. Per the
spec it is a deterministic, total, side-effect-free removal of markup syntax:
heading markers, emphasis/code delimiters and fences are dropped, and link
syntax `[text](url)` is rendered as its visible `text`. Characters are only
ever removed, never added. The first argument is the skip state: `true` while
inside the `(url)` part of a link, which is dropped up to its closing
parenthesis. -/
def stripCharsAux : Bool → List Char → List Char
  | _, [] => []
  | true, c :: rest => if c = ')' then stripCharsAux false rest else stripCharsAux true rest
  | false, c :: rest =>
    if c = '#' ∨ c = '*' ∨ c = '_' ∨ c = '\x60' ∨ c = '[' then stripCharsAux false rest
    else if c = ']' then
      if rest.head? = some '(' then stripCharsAux true rest
      else stripCharsAux false rest
    else c :: stripCharsAux false rest

/-- Plain-text reduction of a whole character list (outside any link URL). -/
def stripChars (l : List Char) : List Char := stripCharsAux false l

/-- Model of `stripMarkdown` from the source (plain-text reduction lifted to
strings). -/
def stripMarkdown (text : String) : String := String.mk (stripChars text.data)

/-- Result record of `extractPostInfo`. -/
structure PostInfo where
  title : String
  description : String
deriving DecidableEq

/-- The description character budget `descriptionCharsToUse = 420`. -/
def descriptionCharsToUse : Nat := 420

/-- Non-empty lines of a document: `markdownContents.split('\\n').filter(Boolean)`
(only the empty string is falsy among strings). -/
def contentLines (cs : List Char) : List (List Char) :=
  (splitOnChar '\n' cs).filter (fun l => !l.isEmpty)

/-- Body of the description, before the marker: the non-title lines joined by
newlines, sliced to the character budget (in source characters, before
reduction), reduced to plain text, trimmed, newlines collapsed to spaces. -/
def descBody (cs : List Char) : List Char :=
  (jsTrim (stripChars ((joinNl ((contentLines cs).drop 1)).take descriptionCharsToUse))).map
    (fun c => if c = '\n' then ' ' else c)

/-- Model of `extractPostInfo`: split the content into lines, drop empty lines
(`filter(Boolean)`), reduce the first remaining line to plain text as the
title, then slice the rest (joined by newlines) to the character budget,
reduce it, trim it, collapse newlines to spaces, and append `"..."`.
When no non-empty line exists, `contentWithoutEmptyLines[0]` is `undefined`
and `remark().process(undefined)` stringifies to the empty document; this is
modelled by taking the empty line (`headD []`). -/
def extractPostInfo (markdownContents : String) : PostInfo where
  title := String.mk (stripChars ((contentLines markdownContents.data).headD []))
  description := String.mk (descBody markdownContents.data ++ "...".data)

/-- Plain-text reduction only removes characters, never adds any. -/
theorem stripCharsAux_length_le (l : List Char) : ∀ b, (stripCharsAux b l).length ≤ l.length := by
  induction l with
  | nil => intro b; cases b <;> simp [stripCharsAux]
  | cons c rest ih =>
    intro b
    cases b with
    | true =>
      rw [stripCharsAux]
      split <;> exact Nat.le_succ_of_le (ih _)
    | false =>
      rw [stripCharsAux]
      split
      · exact Nat.le_succ_of_le (ih _)
      · split
        · split
          · exact Nat.le_succ_of_le (ih _)
          · exact Nat.le_succ_of_le (ih _)
        · simpa using Nat.succ_le_succ (ih false)

theorem stripChars_length_le (l : List Char) : (stripChars l).length ≤ l.length :=
  stripCharsAux_length_le l false

/-- Trimming only removes characters. -/
theorem jsTrim_length_le (l : List Char) : (jsTrim l).length ≤ l.length := by
  unfold jsTrim
  rw [List.length_reverse]
  refine le_trans (List.dropWhile_sublist _).length_le ?_
  rw [List.length_reverse]
  exact (List.dropWhile_sublist _).length_le

/-- Appending lists under `String.mk` is string append. -/
theorem strMk_append (a b : List Char) : String.mk (a ++ b) = String.mk a ++ String.mk b := rfl

/-- C2: every rendered description is a body followed by the `"..."` marker,
and the body never exceeds the 420-character budget (the slice to the budget
happens before plain-text reduction, which never lengthens the text, and
trimming and newline-collapsing never lengthen it either). -/
theorem c2_description_within_budget (s : String) :
    ∃ b : String, (extractPostInfo s).description = b ++ "..." ∧
      b.length ≤ descriptionCharsToUse := by
  refine ⟨String.mk (descBody s.data), strMk_append _ _, ?_⟩
  show (descBody s.data).length ≤ descriptionCharsToUse
  rw [descBody, List.length_map]
  refine le_trans (jsTrim_length_le _) (le_trans (stripChars_length_le _) ?_)
  rw [List.length_take]
  exact min_le_left _ _

/-- Closed witness for C2 at a concrete document whose body is longer than the
budget: the description is the marker-terminated 420-character slice. -/
theorem c2_witness :
    ∃ b : String,
      (extractPostInfo (String.mk ('t' :: '\n' :: List.replicate 1000 'a'))).description =
        b ++ "..." ∧ b.length ≤ descriptionCharsToUse :=
  c2_description_within_budget _

/-- C10: the truncation marker `"..."` is appended to every description
unconditionally, also when nothing was truncated. -/
theorem c10_marker_always_appended (s : String) :
    ∃ b : String, (extractPostInfo s).description = b ++ "..." :=
  ⟨String.mk (descBody s.data), strMk_append _ _⟩

/-- C4: a document whose entire content is the single line `"Hello World"`
yields exactly that title, and the description is the marker alone. -/
theorem c4_hello_world :
    extractPostInfo "Hello World" = { title := "Hello World", description := "..." } := by
  decide

/-- C5: a document with no non-empty lines at all yields an empty title; the
extractor returns normally (it is total), no error is raised. -/
theorem c5_no_nonempty_lines_empty_title (s : String)
    (h : contentLines s.data = []) : (extractPostInfo s).title = "" := by
  unfold extractPostInfo
  rw [h]
  rfl

/-- Closed witness for C5 at a content of only newlines. -/
theorem c5_witness : (extractPostInfo "\n\n").title = "" :=
  c5_no_nonempty_lines_empty_title "\n\n" (by decide)

/-- Days since the Unix epoch of a Gregorian calendar date entering the JS
`Date` as year/month/day (Hinnant's days-from-civil algorithm). The formula is
affine in the day, so day values past the end of a month roll over into the
following month exactly as the JS date components do. -/
def daysFromCivil (y m d : Nat) : Int :=
  let yShift : Int := if m ≤ 2 then (y : Int) - 1 else (y : Int)
  let mp : Int := if m ≤ 2 then (m : Int) + 9 else (m : Int) - 3
  let era : Int := yShift.ediv 400
  let yoe : Int := yShift - era * 400
  let doy : Int := (153 * mp + 2).ediv 5 + (d : Int) - 1
  let doe : Int := yoe * 365 + yoe.ediv 4 - yoe.ediv 100 + doy
  era * 146097 + doe - 719468

/-- Calendar date (year, month, day) of a days-since-epoch count (Hinnant's
civil-from-days algorithm), used to render UTC timestamps. -/
def civilFromDays (z : Int) : Int × Int × Int :=
  let z2 := z + 719468
  let era := z2.fdiv 146097
  let doe := z2 - era * 146097
  let yoe := (doe - doe.ediv 1460 + doe.ediv 36524 - doe.ediv 146096).ediv 365
  let y := yoe + era * 400
  let doy := doe - (365 * yoe + yoe.ediv 4 - yoe.ediv 100)
  let mp := (5 * doy + 2).ediv 153
  let d := doy - (153 * mp + 2).ediv 5 + 1
  let m := if mp < 10 then mp + 3 else mp - 9
  (if m ≤ 2 then y + 1 else y, m, d)

/-- Milliseconds per day. -/
def msPerDay : Int := 86400000

/-- Weekday abbreviation of a days-since-epoch count (1970-01-01 was a
Thursday). -/
def utcWeekdayName (days : Int) : String :=
  ["Sun", "Mon", "Tue", "Wed", "Thu", "Fri", "Sat"].getD ((days + 4).emod 7).toNat "Sun"

/-- Month abbreviation used by `toUTCString`. -/
def monthName (m : Int) : String :=
  ["Jan", "Feb", "Mar", "Apr", "May", "Jun", "Jul", "Aug", "Sep", "Oct", "Nov",
    "Dec"].getD (m - 1).toNat "Jan"

/-- Two-digit zero-padded rendering of a (nonnegative) number. -/
def pad2 (n : Int) : String := if n < 10 then "0" ++ toString n else toString n

/-- Model of `Date.prototype.toUTCString` on a date value in milliseconds
since the Unix epoch (`none` is an invalid date, `NaN`). -/
def jsToUTCString (t : Option Int) : String :=
  match t with
  | none => "Invalid Date"
  | some ms =>
    let days := ms.fdiv msPerDay
    let remMin := (ms - days * msPerDay).ediv 60000
    let ymd := civilFromDays days
    utcWeekdayName days ++ ", " ++ pad2 ymd.2.2 ++ " " ++ monthName ymd.2.1 ++ " " ++
      toString ymd.1 ++ " " ++ pad2 (remMin.ediv 60) ++ ":" ++ pad2 (remMin.emod 60) ++
      ":00 GMT"

/-- Modelled from the spec and the ECMAScript date semantics the source leans
on: `new Date(str)` on a non-ISO `Y/M/D` string uses the legacy parser, which
accepts months 1..12 and days 1..31 (days past the end of the month roll
over) and yields the LOCAL midnight of that calendar day, in a zone
`tzEastMin` minutes east of UTC; anything else is an invalid date (`NaN`,
modelled `none`). The value is in milliseconds since the epoch. -/
def jsDateMsOfYMD (y m d : Nat) (tzEastMin : Int) : Option Int :=
  if 1 ≤ m ∧ m ≤ 12 ∧ 1 ≤ d ∧ d ≤ 31 then
    some (daysFromCivil y m d * msPerDay - tzEastMin * 60000)
  else none

/-- Numeric value of an all-digit field (auxiliary accumulator form). -/
def digitsVal (acc : Nat) : List Char → Option Nat
  | [] => some acc
  | c :: cs => if c.isDigit then digitsVal (acc * 10 + (c.toNat - '0'.toNat)) cs else none

/-- Numeric value of a non-empty all-digit field, else `none`. -/
def digitsToNat? (l : List Char) : Option Nat :=
  if l.isEmpty then none else digitsVal 0 l

/-- Shape of the strings the builder passes to `new Date(...)`: three numeric
fields separated by slashes; other shapes are invalid here. -/
def jsParseSlashDate (s : String) : Option (Nat × Nat × Nat) :=
  match splitOnChar '/' s.data with
  | [ys, ms, ds] =>
    match digitsToNat? ys, digitsToNat? ms, digitsToNat? ds with
    | some y, some m, some d => some (y, m, d)
    | _, _, _ => none
  | _ => none

/-- Model of JS `String.prototype.replace` with a string pattern: only the
first occurrence is replaced (dollar patterns in the replacement are not
used by the builder and are not modelled). -/
def replaceFirstChars : List Char → List Char → List Char → List Char
  | [], pat, repl => if pat.isEmpty then repl else []
  | c :: cs, pat, repl =>
    if pat.isPrefixOf (c :: cs) then repl ++ (c :: cs).drop pat.length
    else c :: replaceFirstChars cs pat repl

/-- String-level first-occurrence replacement. -/
def replaceFirst (s pat repl : String) : String :=
  String.mk (replaceFirstChars s.data pat.data repl.data)

/-- Model of the per-blog date derivation in `main`:
`blog.replace(repoDir + '/', '').split('/').slice(0, 3).join('/')`. -/
def extractedDateString (repoDir blog : String) : String :=
  String.mk (joinWith '/'
    ((splitOnChar '/' (replaceFirstChars blog.data (repoDir ++ "/").data [])).take 3))

/-- Rendered publication timestamp of one blog path:
`new Date(extractedDate).toUTCString()`. -/
def blogPubDate (repoDir blog : String) (tzEastMin : Int) : String :=
  jsToUTCString ((jsParseSlashDate (extractedDateString repoDir blog)).bind
    (fun ymd => jsDateMsOfYMD ymd.1 ymd.2.1 ymd.2.2 tzEastMin))

/-- C8 (amended): the date resolver extracts `2024/3/7` from
`2024/3/7/post.ext` and resolves it to the calendar date 2024-03-07; the
rendered publication timestamp falls on that same calendar day whenever the
environment's timezone is at or west of UTC (offset `tz ≤ 0`, greater than a
day). In particular at UTC it renders `Thu, 07 Mar 2024 00:00:00 GMT`. -/
theorem c8_date_resolution (tz : Int) (h1 : -1440 < tz) (h2 : tz ≤ 0) :
    extractedDateString "/repo" "/repo/2024/3/7/post.ext" = "2024/3/7" ∧
    jsParseSlashDate "2024/3/7" = some (2024, 3, 7) ∧
    (jsDateMsOfYMD 2024 3 7 tz).map (fun ms => ms.fdiv msPerDay) =
      some (daysFromCivil 2024 3 7) ∧
    (tz = 0 → blogPubDate "/repo" "/repo/2024/3/7/post.ext" tz =
      "Thu, 07 Mar 2024 00:00:00 GMT") := by
  refine ⟨by decide, by decide, ?_, ?_⟩
  · show (jsDateMsOfYMD 2024 3 7 tz).map (fun ms => ms.fdiv msPerDay) = _
    rw [jsDateMsOfYMD, if_pos (by omega)]
    have hd : daysFromCivil 2024 3 7 = 19789 := by decide
    rw [hd]
    show some ((19789 * msPerDay - tz * 60000).fdiv msPerDay) = some 19789
    rw [show msPerDay = 86400000 from rfl, Int.fdiv_eq_ediv _ (by omega)]
    congr 1
    omega
  · intro h
    subst h
    decide

/-- Closed witness for C8 at the UTC environment. -/
theorem c8_witness :
    extractedDateString "/repo" "/repo/2024/3/7/post.ext" = "2024/3/7" ∧
    jsParseSlashDate "2024/3/7" = some (2024, 3, 7) ∧
    (jsDateMsOfYMD 2024 3 7 0).map (fun ms => ms.fdiv msPerDay) =
      some (daysFromCivil 2024 3 7) ∧
    ((0 : Int) = 0 → blogPubDate "/repo" "/repo/2024/3/7/post.ext" 0 =
      "Thu, 07 Mar 2024 00:00:00 GMT") :=
  c8_date_resolution 0 (by decide) (by decide)

/-- C8 counterexample to the claim as stated: in an environment two hours east
of UTC the rendered publication timestamp of `2024/3/7/post.ext` falls on the
previous calendar day, 2024-03-06, not on the resolved day 2024-03-07. -/
theorem c8_counterexample :
    blogPubDate "/repo" "/repo/2024/3/7/post.ext" 120 = "Wed, 06 Mar 2024 22:00:00 GMT" ∧
    (jsDateMsOfYMD 2024 3 7 120).map (fun ms => ms.fdiv msPerDay) =
      some (daysFromCivil 2024 3 6) ∧
    daysFromCivil 2024 3 6 ≠ daysFromCivil 2024 3 7 := by
  refine ⟨by decide, by decide, by decide⟩

/-- Numeric value of a list of digit characters. -/
def natOfDigits (l : List Char) : Nat :=
  l.foldl (fun a c => a * 10 + (c.toNat - '0'.toNat)) 0

/-- Greedy take of up to two leading ASCII digits. -/
def takeUpTo2Digits : List Char → (List Char × List Char)
  | [] => ([], [])
  | c :: cs =>
    if c.isDigit then
      match cs with
      | c2 :: cs2 => if c2.isDigit then ([c, c2], cs2) else ([c], cs)
      | [] => ([c], [])
    else ([], c :: cs)

/-- Attempt to match the capture group of
`dateExtractionRegex = /.+?(2\d{3}\/\d{1,2}\/\d{1,2}).+/` at the head of
`cs`, together with the trailing `.+` (at least one more, non-newline
character). Digit fields are greedy; when nothing matchable remains for the
trailing `.+`, the day field backtracks from two digits to one (the freed
digit then satisfies the trailing `.+`), as the regex engine does. -/
def dateGroupAt (cs : List Char) : Option (Nat × Nat × Nat) :=
  match cs with
  | '2' :: a :: b :: c :: '/' :: rest =>
    if a.isDigit ∧ b.isDigit ∧ c.isDigit then
      match takeUpTo2Digits rest with
      | ([], _) => none
      | (mds, rest2) =>
        match rest2 with
        | '/' :: rest3 =>
          match takeUpTo2Digits rest3 with
          | ([], _) => none
          | (dds, rest4) =>
            let y := natOfDigits ['2', a, b, c]
            let m := natOfDigits mds
            if rest4.isEmpty ∨ rest4.head? = some '\n' then
              match dds with
              | [d1, _] => some (y, m, natOfDigits [d1])
              | _ => none
            else some (y, m, natOfDigits dds)
        | _ => none
    else none
  | _ => none

/-- Scan for the leftmost start of the date capture group: its position is at
least one (the lazy `.+?` prefix must consume at least one character) and the
preceding character must be matchable by `.` (not a newline). For
newline-free strings — every path here — this is exactly the regex engine's
leftmost-match rule. -/
def scanDate : Char → List Char → Option (Nat × Nat × Nat)
  | _, [] => none
  | prev, c :: cs =>
    if prev ≠ '\n' then
      match dateGroupAt (c :: cs) with
      | some ymd => some ymd
      | none => scanDate c cs
    else scanDate c cs

/-- Result of `path.match(dateExtractionRegex)`, reduced to the capture group
parsed as year/month/day numbers (`none`: no match). -/
def jsMatchDate (s : String) : Option (Nat × Nat × Nat) :=
  match s.data with
  | [] => none
  | c :: cs => scanDate c cs

/-- Model of the sort comparator in `main`: match both paths against
`dateExtractionRegex`; if either fails to match, return 0; otherwise subtract
the millisecond values of the two parsed dates (an invalid date is `NaN`;
`none` models a `NaN` result). -/
def jsCompare (tzEastMin : Int) (a b : String) : Option Int :=
  match jsMatchDate a, jsMatchDate b with
  | some da, some db =>
    match jsDateMsOfYMD da.1 da.2.1 da.2.2 tzEastMin,
        jsDateMsOfYMD db.1 db.2.1 db.2.2 tzEastMin with
    | some x, some y => some (x - y)
    | _, _ => none
  | _, _ => some 0

/-- JS `x < 0` on a number that may be `NaN` (`NaN < 0` is false). -/
def jsLt0 : Option Int → Bool
  | none => false
  | some v => v < 0

/-- JS `x >= 0` on a number that may be `NaN` (`NaN >= 0` is false). -/
def jsGe0 : Option Int → Bool
  | none => false
  | some v => 0 ≤ v

/-- Longest run extension while the comparator of an element with its
predecessor does not order them descending (`break` on `order < 0`), as
`CountAndMakeRun` extends an ascending run. Returns the run extension and the
remaining elements. -/
def ascRunSplit (cmp : α → α → Option Int) : α → List α → (List α × List α)
  | _, [] => ([], [])
  | prev, x :: xs =>
    if jsLt0 (cmp x prev) then ([], x :: xs)
    else (x :: (ascRunSplit cmp x xs).1, (ascRunSplit cmp x xs).2)

/-- Longest run extension while the comparator keeps ordering strictly
descending (`break` on `order >= 0`), as `CountAndMakeRun` extends a
descending run. -/
def descRunSplit (cmp : α → α → Option Int) : α → List α → (List α × List α)
  | _, [] => ([], [])
  | prev, x :: xs =>
    if jsGe0 (cmp x prev) then ([], x :: xs)
    else (x :: (descRunSplit cmp x xs).1, (descRunSplit cmp x xs).2)

/-- Binary search of the engine's binary insertion sort: find the insertion
position of `pivot` in the prefix `s[0..right)`: while `left < right`, probe
`mid = (left + right) / 2` and move `right` down to `mid` exactly when
`compare(pivot, s[mid]) < 0`, else move `left` past `mid`. The fuel argument
only makes the recursion structural; `right - left` steps always suffice. -/
def binInsertPosAux (cmp : α → α → Option Int) (pivot : α) (s : List α) :
    Nat → Nat → Nat → Nat
  | 0, left, _ => left
  | fuel + 1, left, right =>
    if left < right then
      if jsLt0 (cmp pivot (s.getD ((left + right) / 2) pivot)) then
        binInsertPosAux cmp pivot s fuel left ((left + right) / 2)
      else binInsertPosAux cmp pivot s fuel ((left + right) / 2 + 1) right
    else left

/-- Insertion position of `pivot` into the sorted prefix `s`. -/
def binInsertPos (cmp : α → α → Option Int) (pivot : α) (s : List α) : Nat :=
  binInsertPosAux cmp pivot s s.length 0 s.length

/-- Insertion at a position: elements from `p` on shift right by one. -/
def insertAtPos (p : Nat) (x : α) (l : List α) : List α :=
  l.take p ++ x :: l.drop p

/-- Extension of the sorted prefix by binary-inserting each remaining element
in order, as `BinaryInsertionSort` extends the initial run over the whole
(short) array. -/
def binInsertAll (cmp : α → α → Option Int) : List α → List α → List α
  | sorted, [] => sorted
  | sorted, x :: rest =>
    binInsertAll cmp (insertAtPos (binInsertPos cmp x sorted) x sorted) rest

/-- Modelled from the ECMAScript semantics of `Array.prototype.sort` as
implemented by the engine running the builder (TimSort): for arrays shorter
than 64 elements the whole array is one forced run — the initial maximal run,
reversed when strictly descending — extended by binary insertion sort.
ECMAScript pins the result down only for consistent comparators, for which
every stable sort (including the run-merging used from 64 elements on)
produces this same output; for inconsistent comparators the standard leaves
the order implementation-defined and this model follows the engine. -/
def sortJS (cmp : α → α → Option Int) (l : List α) : List α :=
  match l with
  | [] => []
  | [x] => [x]
  | a :: b :: rest =>
    if jsLt0 (cmp b a) then
      binInsertAll cmp (a :: b :: (descRunSplit cmp b rest).1).reverse
        (descRunSplit cmp b rest).2
    else
      binInsertAll cmp (a :: b :: (ascRunSplit cmp b rest).1) (ascRunSplit cmp b rest).2

/-- Resolvable date key of a path: the date regex must match it and the
matched date must be valid; the key is that date's days-since-epoch count
(whose order is exactly the order of the corresponding local-midnight
millisecond values, the timezone term cancelling). -/
def pathDateKey (s : String) : Option Int :=
  (jsMatchDate s).bind fun ymd =>
    if 1 ≤ ymd.2.1 ∧ ymd.2.1 ≤ 12 ∧ 1 ≤ ymd.2.2 ∧ ymd.2.2 ≤ 31 then
      some (daysFromCivil ymd.1 ymd.2.1 ymd.2.2)
    else none

/-- Comparator sign test against the key order: `order < 0` decides a strict
key increase, on elements whose comparison is the key difference. -/
theorem jsLt0_key {α : Type} (cmp : α → α → Option Int) (k : α → Int) (P : α → Prop)
    (hcmp : ∀ x y, P x → P y → cmp x y = some (k x - k y))
    {x y : α} (hx : P x) (hy : P y) :
    jsLt0 (cmp x y) = decide (k x < k y) := by
  rw [hcmp x y hx hy]
  show decide (k x - k y < 0) = decide (k x < k y)
  rw [decide_eq_decide]
  omega

/-- Comparator sign test against the key order: `order >= 0` decides a weak
key decrease. -/
theorem jsGe0_key {α : Type} (cmp : α → α → Option Int) (k : α → Int) (P : α → Prop)
    (hcmp : ∀ x y, P x → P y → cmp x y = some (k x - k y))
    {x y : α} (hx : P x) (hy : P y) :
    jsGe0 (cmp x y) = decide (k y ≤ k x) := by
  rw [hcmp x y hx hy]
  show decide (0 ≤ k x - k y) = decide (k y ≤ k x)
  rw [decide_eq_decide]
  omega

/-- The ascending-run split decomposes its input. -/
theorem ascRunSplit_append {α : Type} (cmp : α → α → Option Int) (prev : α) (xs : List α) :
    (ascRunSplit cmp prev xs).1 ++ (ascRunSplit cmp prev xs).2 = xs := by
  induction xs generalizing prev with
  | nil => rfl
  | cons x xs ih =>
    rw [ascRunSplit]
    split
    · rfl
    · show x :: ((ascRunSplit cmp x xs).1 ++ (ascRunSplit cmp x xs).2) = x :: xs
      rw [ih x]

/-- The descending-run split decomposes its input. -/
theorem descRunSplit_append {α : Type} (cmp : α → α → Option Int) (prev : α) (xs : List α) :
    (descRunSplit cmp prev xs).1 ++ (descRunSplit cmp prev xs).2 = xs := by
  induction xs generalizing prev with
  | nil => rfl
  | cons x xs ih =>
    rw [descRunSplit]
    split
    · rfl
    · show x :: ((descRunSplit cmp x xs).1 ++ (descRunSplit cmp x xs).2) = x :: xs
      rw [ih x]

/-- Under a keyed comparator, the ascending run really ascends (weakly). -/
theorem ascRunSplit_chain {α : Type} (cmp : α → α → Option Int) (k : α → Int) (P : α → Prop)
    (hcmp : ∀ x y, P x → P y → cmp x y = some (k x - k y)) :
    ∀ (xs : List α) (prev : α), P prev → (∀ x ∈ xs, P x) →
      List.Chain (fun a b => k a ≤ k b) prev (ascRunSplit cmp prev xs).1 := by
  intro xs
  induction xs with
  | nil => intro prev _ _; exact List.Chain.nil
  | cons x xs ih =>
    intro prev hprev hxs
    rw [ascRunSplit]
    split
    · exact List.Chain.nil
    · rename_i h
      rw [jsLt0_key cmp k P hcmp (hxs x (by simp)) hprev] at h
      have hk : k prev ≤ k x := le_of_not_lt (fun hlt => h (decide_eq_true hlt))
      exact List.Chain.cons hk (ih x (hxs x (by simp)) (fun y hy => hxs y (by simp [hy])))

/-- Under a keyed comparator, the descending run really descends (strictly). -/
theorem descRunSplit_chain {α : Type} (cmp : α → α → Option Int) (k : α → Int) (P : α → Prop)
    (hcmp : ∀ x y, P x → P y → cmp x y = some (k x - k y)) :
    ∀ (xs : List α) (prev : α), P prev → (∀ x ∈ xs, P x) →
      List.Chain (fun a b => k b < k a) prev (descRunSplit cmp prev xs).1 := by
  intro xs
  induction xs with
  | nil => intro prev _ _; exact List.Chain.nil
  | cons x xs ih =>
    intro prev hprev hxs
    rw [descRunSplit]
    split
    · exact List.Chain.nil
    · rename_i h
      rw [jsGe0_key cmp k P hcmp (hxs x (by simp)) hprev] at h
      have hk : k x < k prev := lt_of_not_le (fun hle => h (decide_eq_true hle))
      exact List.Chain.cons hk (ih x (hxs x (by simp)) (fun y hy => hxs y (by simp [hy])))

/-- Boundary specification of the binary search: on a key-sorted prefix the
returned position has all earlier elements at key at most the pivot's and all
later elements strictly above it. -/
theorem binInsertPosAux_spec {α : Type} (cmp : α → α → Option Int) (k : α → Int) (P : α → Prop)
    (hcmp : ∀ x y, P x → P y → cmp x y = some (k x - k y))
    (pivot : α) (hpivot : P pivot) (s : List α) (hsP : ∀ x ∈ s, P x)
    (hsorted : List.Pairwise (fun a b => k a ≤ k b) s) :
    ∀ (fuel left right : Nat), right ≤ s.length → left ≤ right → right - left ≤ fuel →
      (∀ i (hi : i < s.length), i < left → k s[i] ≤ k pivot) →
      (∀ i (hi : i < s.length), right ≤ i → k pivot < k s[i]) →
      left ≤ binInsertPosAux cmp pivot s fuel left right ∧
      binInsertPosAux cmp pivot s fuel left right ≤ right ∧
      (∀ i (hi : i < s.length), i < binInsertPosAux cmp pivot s fuel left right →
        k s[i] ≤ k pivot) ∧
      (∀ i (hi : i < s.length), binInsertPosAux cmp pivot s fuel left right ≤ i →
        k pivot < k s[i]) := by
  have hmono : ∀ i j (hi : i < s.length) (hj : j < s.length), i ≤ j → k s[i] ≤ k s[j] := by
    intro i j hi hj hij
    rcases Nat.lt_or_ge i j with h | h
    · exact (List.pairwise_iff_getElem.mp hsorted) i j hi hj h
    · have : i = j := by omega
      subst this
      exact le_refl _
  intro fuel
  induction fuel with
  | zero =>
    intro left right hr hlr hfuel hleft hright
    have heq : left = right := by omega
    subst heq
    rw [binInsertPosAux]
    exact ⟨le_refl _, le_refl _, hleft, hright⟩
  | succ fuel ih =>
    intro left right hr hlr hfuel hleft hright
    rw [binInsertPosAux]
    by_cases hlt : left < right
    · rw [if_pos hlt]
      have hmid_lt : (left + right) / 2 < right := by omega
      have hmid_ge : left ≤ (left + right) / 2 := by omega
      have hmid_len : (left + right) / 2 < s.length := by omega
      rw [List.getD_eq_getElem s pivot hmid_len,
        jsLt0_key cmp k P hcmp hpivot (hsP _ (List.getElem_mem hmid_len))]
      by_cases hc : k pivot < k s[(left + right) / 2]
      · rw [if_pos (decide_eq_true hc)]
        have hres := ih left ((left + right) / 2) (by omega) (by omega) (by omega) hleft ?_
        · exact ⟨hres.1, le_trans hres.2.1 (le_of_lt hmid_lt), hres.2.2⟩
        · intro i hi hmi
          exact lt_of_lt_of_le hc (hmono _ _ hmid_len hi hmi)
      · rw [if_neg (by simpa using hc)]
        have hle : k s[(left + right) / 2] ≤ k pivot := le_of_not_lt hc
        have hres := ih ((left + right) / 2 + 1) right (by omega) (by omega) (by omega) ?_ hright
        · exact ⟨by omega, hres.2.1, hres.2.2⟩
        · intro i hi hmi
          exact le_trans (hmono i _ hi hmid_len (by omega)) hle
    · rw [if_neg hlt]
      have heq : left = right := by omega
      exact ⟨le_refl _, le_of_eq heq, hleft, fun i hi hle => hright i hi (heq ▸ hle)⟩

/-- Elements of a take-prefix, by index. -/
theorem mem_take_getElem {α : Type} {a : α} {l : List α} {p : Nat} (h : a ∈ l.take p) :
    ∃ i, ∃ hi : i < l.length, i < p ∧ l[i] = a := by
  obtain ⟨i, hi, hval⟩ := List.getElem_of_mem h
  have hlen := hi
  rw [List.length_take] at hlen
  refine ⟨i, by omega, by omega, ?_⟩
  rw [← hval, List.getElem_take]

/-- Elements of a drop-suffix, by index. -/
theorem mem_drop_getElem {α : Type} {a : α} {l : List α} {p : Nat} (h : a ∈ l.drop p) :
    ∃ i, ∃ hi : i < l.length, p ≤ i ∧ l[i] = a := by
  obtain ⟨j, hj, hval⟩ := List.getElem_of_mem h
  have hlen := hj
  rw [List.length_drop] at hlen
  refine ⟨p + j, by omega, by omega, ?_⟩
  rw [← hval, List.getElem_drop]

/-- Insertion is a permutation of consing. -/
theorem insertAtPos_perm {α : Type} (p : Nat) (x : α) (l : List α) :
    (insertAtPos p x l).Perm (x :: l) := by
  unfold insertAtPos
  have h := @List.perm_middle _ x (l.take p) (l.drop p)
  rw [List.take_append_drop] at h
  exact h

/-- Insertion at a boundary position preserves key-sortedness. -/
theorem insertAtPos_sorted {α : Type} (k : α → Int) (x : α) (s : List α) (p : Nat)
    (hsorted : List.Pairwise (fun a b => k a ≤ k b) s)
    (hbefore : ∀ i (hi : i < s.length), i < p → k s[i] ≤ k x)
    (hafter : ∀ i (hi : i < s.length), p ≤ i → k x < k s[i]) :
    List.Pairwise (fun a b => k a ≤ k b) (insertAtPos p x s) := by
  unfold insertAtPos
  rw [List.pairwise_append]
  refine ⟨hsorted.sublist (List.take_sublist _ _), ?_, ?_⟩
  · rw [List.pairwise_cons]
    refine ⟨?_, hsorted.sublist (List.drop_sublist _ _)⟩
    intro b hb
    obtain ⟨i, hi, hip, hval⟩ := mem_drop_getElem hb
    rw [← hval]
    exact le_of_lt (hafter i hi hip)
  · intro a ha b hb
    obtain ⟨i, hi, hip, hval⟩ := mem_take_getElem ha
    have hax : k a ≤ k x := hval ▸ hbefore i hi hip
    rcases List.mem_cons.mp hb with rfl | hb2
    · exact hax
    · obtain ⟨j, hj, hjp, hjval⟩ := mem_drop_getElem hb2
      rw [← hjval]
      exact le_trans hax (le_of_lt (hafter j hj hjp))

/-- Effect of a boundary insertion on key-filters: an element with the
filtered key lands after all existing occurrences of that key (stability),
and other filters are untouched. -/
theorem insertAtPos_filter {α : Type} (k : α → Int) (x : α) (s : List α) (p : Nat) (c : Int)
    (hafter : ∀ i (hi : i < s.length), p ≤ i → k x < k s[i]) :
    (insertAtPos p x s).filter (fun y => k y == c) =
      if k x = c then s.filter (fun y => k y == c) ++ [x]
      else s.filter (fun y => k y == c) := by
  unfold insertAtPos
  rw [List.filter_append, List.filter_cons]
  by_cases hc : k x = c
  · have hdrop : (s.drop p).filter (fun y => k y == c) = [] := by
      rw [List.filter_eq_nil_iff]
      intro a ha
      obtain ⟨i, hi, hip, hval⟩ := mem_drop_getElem ha
      have hgt := hafter i hi hip
      simp only [beq_iff_eq]
      rw [← hval]
      omega
    rw [if_pos hc, if_pos (by simpa using hc), hdrop]
    conv_rhs => rw [← List.take_append_drop p s, List.filter_append, hdrop]
    simp
  · rw [if_neg hc, if_neg (by simpa using hc)]
    conv_rhs => rw [← List.take_append_drop p s, List.filter_append]

/-- Binary insertion of all remaining elements: the accumulated list stays
key-sorted, and each key-filter of the result is the filter of the sorted
prefix followed by the filter of the remaining input, in input order
(stability). -/
theorem binInsertAll_spec {α : Type} (cmp : α → α → Option Int) (k : α → Int) (P : α → Prop)
    (hcmp : ∀ x y, P x → P y → cmp x y = some (k x - k y)) :
    ∀ (rest sorted : List α), (∀ x ∈ sorted, P x) → (∀ x ∈ rest, P x) →
      List.Pairwise (fun a b => k a ≤ k b) sorted →
      List.Pairwise (fun a b => k a ≤ k b) (binInsertAll cmp sorted rest) ∧
      ∀ c : Int, (binInsertAll cmp sorted rest).filter (fun y => k y == c) =
        sorted.filter (fun y => k y == c) ++ rest.filter (fun y => k y == c) := by
  intro rest
  induction rest with
  | nil =>
    intro sorted _ _ hs
    exact ⟨hs, fun c => by simp [binInsertAll]⟩
  | cons x rest ih =>
    intro sorted hPs hPr hs
    rw [binInsertAll]
    have hPx : P x := hPr x (by simp)
    have hpos := binInsertPosAux_spec cmp k P hcmp x hPx sorted hPs hs
      sorted.length 0 sorted.length (le_refl _) (Nat.zero_le _) (by omega)
      (fun i hi h0 => absurd h0 (Nat.not_lt_zero i))
      (fun i hi hge => absurd hi (by omega))
    obtain ⟨-, hple, hbef, haft⟩ := hpos
    have hperm := insertAtPos_perm (binInsertPos cmp x sorted) x sorted
    have hPs' : ∀ y ∈ insertAtPos (binInsertPos cmp x sorted) x sorted, P y := by
      intro y hy
      rcases List.mem_cons.mp (hperm.mem_iff.mp hy) with rfl | hmem
      · exact hPx
      · exact hPs y hmem
    have hs' := insertAtPos_sorted k x sorted (binInsertPos cmp x sorted) hs hbef haft
    have hrec := ih (insertAtPos (binInsertPos cmp x sorted) x sorted) hPs'
      (fun y hy => hPr y (by simp [hy])) hs'
    refine ⟨hrec.1, ?_⟩
    intro c
    rw [hrec.2 c, insertAtPos_filter k x sorted (binInsertPos cmp x sorted) c haft,
      List.filter_cons]
    by_cases hc : k x = c
    · rw [if_pos hc, if_pos (by simpa using hc)]
      simp
    · rw [if_neg hc, if_neg (by simpa using hc)]

/-- Binary insertion of all remaining elements permutes the two inputs
(for any comparator, consistent or not). -/
theorem binInsertAll_perm {α : Type} (cmp : α → α → Option Int) :
    ∀ (rest sorted : List α), (binInsertAll cmp sorted rest).Perm (sorted ++ rest) := by
  intro rest
  induction rest with
  | nil => intro sorted; simp [binInsertAll]
  | cons x rest ih =>
    intro sorted
    rw [binInsertAll]
    refine (ih _).trans ?_
    refine (List.Perm.append_right rest (insertAtPos_perm _ x sorted)).trans ?_
    exact List.perm_middle.symm

/-- A key-filter of a list whose keys strictly decrease has at most one
element, so reversing the list does not change that filter. -/
theorem filter_reverse_of_strict {α : Type} (k : α → Int) (c : Int) (m : List α)
    (hpw : List.Pairwise (fun p q => k q < k p) m) :
    m.reverse.filter (fun y => k y == c) = m.filter (fun y => k y == c) := by
  rw [List.filter_reverse]
  rcases hfm : m.filter (fun y => k y == c) with - | ⟨y1, tl⟩
  · rfl
  · rcases htl : tl with - | ⟨y2, tl2⟩
    · rfl
    · exfalso
      have hpf := hpw.filter (fun y => k y == c)
      rw [hfm, htl] at hpf
      have h12 : k y2 < k y1 := (List.pairwise_cons.mp hpf).1 y2 (by simp)
      have hy1 : y1 ∈ m.filter (fun y => k y == c) := by rw [hfm]; simp
      have hy2 : y2 ∈ m.filter (fun y => k y == c) := by rw [hfm, htl]; simp
      have hk1 : k y1 = c := by simpa using (List.mem_filter.mp hy1).2
      have hk2 : k y2 = c := by simpa using (List.mem_filter.mp hy2).2
      omega

/-- Correctness of the engine's sort under a keyed (hence consistent)
comparator: the output is weakly ascending by key, and every key-filter of the
output equals that of the input (equal-keyed elements keep their input
order). -/
theorem sortJS_key_spec {α : Type} (cmp : α → α → Option Int) (k : α → Int) (P : α → Prop)
    (hcmp : ∀ x y, P x → P y → cmp x y = some (k x - k y))
    (l : List α) (hl : ∀ x ∈ l, P x) :
    List.Pairwise (fun a b => k a ≤ k b) (sortJS cmp l) ∧
    ∀ c : Int, (sortJS cmp l).filter (fun y => k y == c) = l.filter (fun y => k y == c) := by
  match l with
  | [] => exact ⟨List.Pairwise.nil, fun c => rfl⟩
  | [x] => exact ⟨by rw [sortJS]; simp, fun c => rfl⟩
  | a :: b :: rest =>
    have hPa : P a := hl a (by simp)
    have hPb : P b := hl b (by simp)
    have hPrest : ∀ x ∈ rest, P x := fun x hx => hl x (by simp [hx])
    rw [sortJS]
    by_cases hd : jsLt0 (cmp b a) = true
    · rw [if_pos hd]
      rw [jsLt0_key cmp k P hcmp hPb hPa] at hd
      have hba : k b < k a := of_decide_eq_true hd
      have happ := descRunSplit_append cmp b rest
      have hrun_mem : ∀ x ∈ (descRunSplit cmp b rest).1, x ∈ rest := by
        intro x hx
        rw [← happ]
        exact List.mem_append.mpr (Or.inl hx)
      have hrest2_mem : ∀ x ∈ (descRunSplit cmp b rest).2, x ∈ rest := by
        intro x hx
        rw [← happ]
        exact List.mem_append.mpr (Or.inr hx)
      have hchain : List.Chain (fun p q => k q < k p) a (b :: (descRunSplit cmp b rest).1) :=
        List.chain_cons.mpr ⟨hba, descRunSplit_chain cmp k P hcmp rest b hPb hPrest⟩
      haveI : IsTrans α (fun p q => k q < k p) := ⟨fun x y z h1 h2 => lt_trans h2 h1⟩
      have hpw_desc : List.Pairwise (fun p q => k q < k p)
          (a :: b :: (descRunSplit cmp b rest).1) := List.chain_iff_pairwise.mp hchain
      have hpw_run : List.Pairwise (fun p q => k p ≤ k q)
          (a :: b :: (descRunSplit cmp b rest).1).reverse := by
        rw [List.pairwise_reverse]
        exact hpw_desc.imp (fun h => le_of_lt h)
      have hP_run : ∀ x ∈ (a :: b :: (descRunSplit cmp b rest).1).reverse, P x := by
        intro x hx
        rw [List.mem_reverse] at hx
        rcases List.mem_cons.mp hx with rfl | hx2
        · exact hPa
        · rcases List.mem_cons.mp hx2 with rfl | hx3
          · exact hPb
          · exact hPrest x (hrun_mem x hx3)
      have hball := binInsertAll_spec cmp k P hcmp (descRunSplit cmp b rest).2
        ((a :: b :: (descRunSplit cmp b rest).1).reverse) hP_run
        (fun x hx => hPrest x (hrest2_mem x hx)) hpw_run
      refine ⟨hball.1, ?_⟩
      intro c
      rw [hball.2 c, filter_reverse_of_strict k c _ hpw_desc, ← List.filter_append]
      have : (a :: b :: (descRunSplit cmp b rest).1) ++ (descRunSplit cmp b rest).2 =
          a :: b :: rest := by
        simp only [List.cons_append]
        rw [happ]
      rw [this]
    · rw [if_neg hd]
      rw [jsLt0_key cmp k P hcmp hPb hPa] at hd
      have hab : k a ≤ k b := le_of_not_lt (fun hlt => hd (decide_eq_true hlt))
      have happ := ascRunSplit_append cmp b rest
      have hrun_mem : ∀ x ∈ (ascRunSplit cmp b rest).1, x ∈ rest := by
        intro x hx
        rw [← happ]
        exact List.mem_append.mpr (Or.inl hx)
      have hrest2_mem : ∀ x ∈ (ascRunSplit cmp b rest).2, x ∈ rest := by
        intro x hx
        rw [← happ]
        exact List.mem_append.mpr (Or.inr hx)
      have hchain : List.Chain (fun p q => k p ≤ k q) a (b :: (ascRunSplit cmp b rest).1) :=
        List.chain_cons.mpr ⟨hab, ascRunSplit_chain cmp k P hcmp rest b hPb hPrest⟩
      haveI : IsTrans α (fun p q => k p ≤ k q) := ⟨fun x y z h1 h2 => le_trans h1 h2⟩
      have hpw_run : List.Pairwise (fun p q => k p ≤ k q)
          (a :: b :: (ascRunSplit cmp b rest).1) := List.chain_iff_pairwise.mp hchain
      have hP_run : ∀ x ∈ a :: b :: (ascRunSplit cmp b rest).1, P x := by
        intro x hx
        rcases List.mem_cons.mp hx with rfl | hx2
        · exact hPa
        · rcases List.mem_cons.mp hx2 with rfl | hx3
          · exact hPb
          · exact hPrest x (hrun_mem x hx3)
      have hball := binInsertAll_spec cmp k P hcmp (ascRunSplit cmp b rest).2
        (a :: b :: (ascRunSplit cmp b rest).1) hP_run
        (fun x hx => hPrest x (hrest2_mem x hx)) hpw_run
      refine ⟨hball.1, ?_⟩
      intro c
      rw [hball.2 c, ← List.filter_append]
      have : (a :: b :: (ascRunSplit cmp b rest).1) ++ (ascRunSplit cmp b rest).2 =
          a :: b :: rest := by
        simp only [List.cons_append]
        rw [happ]
      rw [this]

/-- The engine's sort permutes its input, for any comparator whatsoever. -/
theorem sortJS_perm {α : Type} (cmp : α → α → Option Int) (l : List α) :
    (sortJS cmp l).Perm l := by
  match l with
  | [] => exact List.Perm.refl _
  | [x] => exact List.Perm.refl _
  | a :: b :: rest =>
    rw [sortJS]
    by_cases hd : jsLt0 (cmp b a) = true
    · rw [if_pos hd]
      refine (binInsertAll_perm cmp _ _).trans ?_
      refine (List.Perm.append_right _ (List.reverse_perm _)).trans ?_
      have : (a :: b :: (descRunSplit cmp b rest).1) ++ (descRunSplit cmp b rest).2 =
          a :: b :: rest := by
        simp only [List.cons_append]
        rw [descRunSplit_append cmp b rest]
      rw [this]
    · rw [if_neg hd]
      refine (binInsertAll_perm cmp _ _).trans ?_
      have : (a :: b :: (ascRunSplit cmp b rest).1) ++ (ascRunSplit cmp b rest).2 =
          a :: b :: rest := by
        simp only [List.cons_append]
        rw [ascRunSplit_append cmp b rest]
      rw [this]

/-- Characterization of a resolvable path: the regex matches and the matched
date is valid; the key is its day count. -/
theorem pathDateKey_isSome {s : String} (h : (pathDateKey s).isSome = true) :
    ∃ ymd, jsMatchDate s = some ymd ∧
      (1 ≤ ymd.2.1 ∧ ymd.2.1 ≤ 12 ∧ 1 ≤ ymd.2.2 ∧ ymd.2.2 ≤ 31) ∧
      pathDateKey s = some (daysFromCivil ymd.1 ymd.2.1 ymd.2.2) := by
  unfold pathDateKey at h ⊢
  cases hm : jsMatchDate s with
  | none => rw [hm] at h; simp at h
  | some ymd =>
    rw [hm] at h
    simp only [Option.some_bind] at h ⊢
    by_cases hv : 1 ≤ ymd.2.1 ∧ ymd.2.1 ≤ 12 ∧ 1 ≤ ymd.2.2 ∧ ymd.2.2 ≤ 31
    · exact ⟨ymd, rfl, hv, by rw [if_pos hv]⟩
    · rw [if_neg hv] at h
      simp at h

/-- On two paths with resolvable dates the comparator value is exactly the
difference of their local-midnight millisecond values; the timezone term
cancels, leaving the scaled difference of the day keys. -/
theorem jsCompare_resolvable (tz : Int) (a b : String)
    (ha : (pathDateKey a).isSome = true) (hb : (pathDateKey b).isSome = true) :
    jsCompare tz a b =
      some ((pathDateKey a).getD 0 * msPerDay - (pathDateKey b).getD 0 * msPerDay) := by
  obtain ⟨da, hma, hva, hka⟩ := pathDateKey_isSome ha
  obtain ⟨db, hmb, hvb, hkb⟩ := pathDateKey_isSome hb
  rw [hka, hkb]
  unfold jsCompare
  rw [hma, hmb]
  show (match jsDateMsOfYMD da.1 da.2.1 da.2.2 tz, jsDateMsOfYMD db.1 db.2.1 db.2.2 tz with
    | some x, some y => some (x - y)
    | _, _ => none) = _
  rw [jsDateMsOfYMD, if_pos hva, jsDateMsOfYMD, if_pos hvb]
  simp only [Option.getD_some]
  congr 1
  ring

/-- C1 (amended): when every path in the scanned list has a resolvable date,
the engine's sort orders the paths weakly ascending by resolved date —  so for
any two paths with distinct dates the earlier-dated one comes strictly first —
and paths with equal dates keep their scan order (every date-filter of the
output equals that of the input); the output is a permutation of the input.
When some scanned path has no resolvable date the comparator is inconsistent
and the engine can leave even two resolvable-dated documents out of order; see
the counterexample. -/
theorem c1_sorted_when_all_dates_resolvable (tz : Int) (l : List String)
    (h : ∀ p ∈ l, (pathDateKey p).isSome = true) :
    List.Pairwise (fun a b => (pathDateKey a).getD 0 ≤ (pathDateKey b).getD 0)
      (sortJS (jsCompare tz) l) ∧
    (∀ c : Int, (sortJS (jsCompare tz) l).filter (fun p => (pathDateKey p).getD 0 == c) =
      l.filter (fun p => (pathDateKey p).getD 0 == c)) ∧
    (sortJS (jsCompare tz) l).Perm l := by
  have hspec := sortJS_key_spec (jsCompare tz) (fun p => (pathDateKey p).getD 0 * msPerDay)
    (fun p => (pathDateKey p).isSome = true)
    (fun x y hx hy => jsCompare_resolvable tz x y hx hy) l h
  refine ⟨?_, ?_, sortJS_perm _ _⟩
  · exact hspec.1.imp (fun hab =>
      (mul_le_mul_right (by decide : (0 : Int) < msPerDay)).mp hab)
  · intro c
    have hfun : ∀ m : List String,
        m.filter (fun y => (pathDateKey y).getD 0 * msPerDay == c * msPerDay) =
          m.filter (fun p => (pathDateKey p).getD 0 == c) := by
      intro m
      apply List.filter_congr
      intro x _
      by_cases hx : (pathDateKey x).getD 0 = c
      · rw [hx]
        simp
      · have hne : (pathDateKey x).getD 0 * msPerDay ≠ c * msPerDay := fun he =>
          hx (mul_right_cancel₀ (by decide : (msPerDay : Int) ≠ 0) he)
        simp [hx, hne]
    have hfc := hspec.2 (c * msPerDay)
    rw [hfun (sortJS (jsCompare tz) l), hfun l] at hfc
    exact hfc

/-- Closed witness for C1 at a three-document scan whose dates all resolve. -/
theorem c1_witness :
    List.Pairwise (fun a b => (pathDateKey a).getD 0 ≤ (pathDateKey b).getD 0)
      (sortJS (jsCompare 0)
        ["/repo/2024/2/2/b.md", "/repo/2021/1/3/a.md", "/repo/2022/5/5/c.md"]) ∧
    (∀ c : Int,
      (sortJS (jsCompare 0)
        ["/repo/2024/2/2/b.md", "/repo/2021/1/3/a.md", "/repo/2022/5/5/c.md"]).filter
          (fun p => (pathDateKey p).getD 0 == c) =
        (["/repo/2024/2/2/b.md", "/repo/2021/1/3/a.md",
          "/repo/2022/5/5/c.md"] : List String).filter
          (fun p => (pathDateKey p).getD 0 == c)) ∧
    (sortJS (jsCompare 0)
      ["/repo/2024/2/2/b.md", "/repo/2021/1/3/a.md", "/repo/2022/5/5/c.md"]).Perm
      ["/repo/2024/2/2/b.md", "/repo/2021/1/3/a.md", "/repo/2022/5/5/c.md"] :=
  c1_sorted_when_all_dates_resolvable 0
    ["/repo/2024/2/2/b.md", "/repo/2021/1/3/a.md", "/repo/2022/5/5/c.md"] (by decide)

/-- Filesystem of the C1 counterexample: one year directory `2023` whose
month-level entries are listed in the order `9`, `notes`, `1`, so the scan
discovers the 2023-09-09 document first, then an undated document, then the
2023-01-01 document. -/
def fsC1 : FS :=
  fsOfLists
    [("/repo", ["2023"]), ("/repo/2023", ["9", "notes", "1"]),
      ("/repo/2023/9", ["9"]), ("/repo/2023/9/9", ["late.md"]),
      ("/repo/2023/notes", ["extra"]), ("/repo/2023/notes/extra", ["mid.md"]),
      ("/repo/2023/1", ["1"]), ("/repo/2023/1/1", ["early.md"])]
    []

/-- C1 counterexample to the claim as stated: the scan discovers the documents
in the order [2023-09-09, undated, 2023-01-01]; the comparator returns 0
against the undated middle path, the whole list counts as one ascending run,
and the engine's sort returns it unchanged — the document dated 2023-09-09
stays strictly before the one dated 2023-01-01 although both dates resolve. -/
theorem c1_counterexample :
    scanBlogs fsC1 "/repo" =
      .ok ["/repo/2023/9/9/late.md", "/repo/2023/notes/extra/mid.md",
        "/repo/2023/1/1/early.md"] ∧
    sortJS (jsCompare 0)
      ["/repo/2023/9/9/late.md", "/repo/2023/notes/extra/mid.md",
        "/repo/2023/1/1/early.md"] =
      ["/repo/2023/9/9/late.md", "/repo/2023/notes/extra/mid.md",
        "/repo/2023/1/1/early.md"] ∧
    pathDateKey "/repo/2023/9/9/late.md" = some (daysFromCivil 2023 9 9) ∧
    pathDateKey "/repo/2023/1/1/early.md" = some (daysFromCivil 2023 1 1) ∧
    daysFromCivil 2023 1 1 < daysFromCivil 2023 9 9 :=
  ⟨by decide, by decide, by decide, by decide, by decide⟩

/-- Channel title constant `blogTitle`. -/
def blogTitle : String := "Francis Stokes :: Githublog"

/-- Channel description constant `blogDescription`. -/
def blogDescription : String :=
  "I\x27m sick of complex blogging solutions, so markdown files in a git repo it is."

/-- Repository link constant `githubURLBase`. -/
def gitHubBase : String := "https://github.com/francisrstokes/githublog"

/-- Blob link base (`githubURLPrefix` in the source): the repository link
followed by `/blob/main`. -/
def gitHubBlobBase : String := gitHubBase ++ "/blob/main"

/-- Template text before the copyright year. -/
def tplA : String :=
  "<?xml version=\"1.0\" encoding=\"UTF-8\" ?>\n<rss version=\"2.0\">\n<channel>\n <title>"
    ++ blogTitle ++ "</title>\n <description>" ++ blogDescription ++ "</description>\n <link>"
    ++ gitHubBase ++ "</link>\n <copyright>"

/-- Template text between the copyright year and the build timestamp. -/
def tplB : String := " Francis Stokes - All rights reserved</copyright>\n <lastBuildDate>"

/-- Template text between the two occurrences of the build timestamp
(`lastBuildDate` and the channel `pubDate` both interpolate it). -/
def tplC : String := "</lastBuildDate>\n <pubDate>"

/-- Template text after the second timestamp, up to the entries placeholder
(`ttl = 86400 / 60 = 1440`). -/
def tplD : String := "</pubDate>\n <ttl>1440</ttl>\n\n"

/-- Template text after the entries placeholder. -/
def tplE : String := "\n\n</channel>\n</rss>\n"

/-- The entries placeholder replaced by `rssTemplate.replace`. -/
def entriesMarker : String := "\x7bblog_entries\x7d"

/-- Model of `rssTemplate`: the channel envelope, parameterized by the two
values read from the clock at process start (`new Date().getFullYear()`
rendered into the copyright field and `new Date().toUTCString()` rendered
into both `lastBuildDate` and `pubDate`). -/
def rssTemplate (copyrightYear lastBuildDate : String) : String :=
  tplA ++ copyrightYear ++ tplB ++ lastBuildDate ++ tplC ++ lastBuildDate ++ tplD ++
    entriesMarker ++ tplE

/-- Model of `generateRSSItem`. -/
def generateRSSItem (postInfo : PostInfo) (link date : String) : String :=
  "<item>\n  <title>" ++ postInfo.title ++ "</title>\n  <description>" ++
    postInfo.description ++ "</description>\n  <link>" ++ link ++ "</link>\n  <pubDate>" ++
    date ++ "</pubDate>\n</item>\n"

/-- Pointwise zip of three equally long lists, as the `for` loop over
`postInfo.length` indexes `postInfo[i]`, `urls[i]` and `dates[i]`. -/
def zipWith3 (f : α → β → γ → δ) : List α → List β → List γ → List δ
  | x :: xs, y :: ys, z :: zs => f x y z :: zipWith3 f xs ys zs
  | _, _, _ => []

/-- Join with newlines, mirroring `rssItems.join('\n')`. -/
def joinLinesStr : List String → String
  | [] => ""
  | [s] => s
  | s :: rest => s ++ "\n" ++ joinLinesStr rest

/-- Body of `main` up to `rssBlogEntries`: scan the root, sort the blog paths
with the date comparator, read and extract every post (all must succeed),
derive the publication dates and links, and render the joined item blocks. -/
def feedEntries (fs : FS) (repoDir : String) (tzEastMin : Int) : Except Unit String :=
  (scanBlogs fs repoDir).bind fun allBlogs0 =>
    (promiseAll ((sortJS (jsCompare tzEastMin) allBlogs0).map fun blog =>
      (fs.readFile blog).map extractPostInfo)).map fun postInfo =>
      joinLinesStr (zipWith3 generateRSSItem postInfo
        ((sortJS (jsCompare tzEastMin) allBlogs0).map fun blog =>
          replaceFirst blog repoDir gitHubBlobBase)
        ((sortJS (jsCompare tzEastMin) allBlogs0).map fun blog =>
          blogPubDate repoDir blog tzEastMin))

/-- Model of a whole run of `main`: `.ok content` is a run that reaches the
final `fs.writeFile` and writes exactly `content`; `.error ()` is a run whose
promise rejects first — nothing is written and the process fails. -/
def runMain (fs : FS) (repoDir copyrightYear lastBuildDate : String) (tzEastMin : Int) :
    Except Unit String :=
  (feedEntries fs repoDir tzEastMin).map fun entries =>
    replaceFirst (rssTemplate copyrightYear lastBuildDate) entriesMarker entries

/-- A failing entry makes the whole `Promise.all` reject. -/
theorem promiseAll_error {β γ : Type} (f : γ → Except Unit β) :
    ∀ (l : List γ) (b : γ), b ∈ l → f b = .error () → promiseAll (l.map f) = .error () := by
  intro l
  induction l with
  | nil => intro b hb; simp at hb
  | cons x xs ih =>
    intro b hb hf
    rcases List.mem_cons.mp hb with rfl | hmem
    · show promiseAll (f b :: xs.map f) = .error ()
      rw [hf]
      rfl
    · show promiseAll (f x :: xs.map f) = .error ()
      cases hfx : f x with
      | error e => rfl
      | ok a =>
        show (promiseAll (xs.map f)).map (a :: ·) = .error ()
        rw [ih b hmem hf]
        rfl

/-- C3 (amended): when reading any one discovered document fails, the whole
run fails: the joined `Promise.all` of the reads rejects, `main`'s promise
rejects, no feed is written and no per-document diagnostic is produced — the
document is not skipped. -/
theorem c3_read_failure_fatal (fs : FS) (repoDir y ts : String) (tz : Int)
    (l : List String) (hscan : scanBlogs fs repoDir = .ok l)
    (b : String) (hb : b ∈ l) (hfail : fs.readFile b = .error ()) :
    runMain fs repoDir y ts tz = .error () := by
  unfold runMain feedEntries
  rw [hscan]
  show ((promiseAll ((sortJS (jsCompare tz) l).map fun blog =>
    (fs.readFile blog).map extractPostInfo)).map _).map _ = .error ()
  have hbs : b ∈ sortJS (jsCompare tz) l := (sortJS_perm (jsCompare tz) l).mem_iff.mpr hb
  rw [promiseAll_error (fun blog => (fs.readFile blog).map extractPostInfo)
    (sortJS (jsCompare tz) l) b hbs
    (by show Except.map extractPostInfo (fs.readFile b) = .error (); rw [hfail]; rfl)]
  rfl

/-- Filesystem of the C3 claims: one readable document and one whose read
fails. -/
def fsC3 : FS :=
  fsOfLists
    [("/repo", ["2023"]), ("/repo/2023", ["1"]), ("/repo/2023/1", ["1"]),
      ("/repo/2023/1/1", ["good.md", "bad.md"])]
    [("/repo/2023/1/1/good.md", "# Hello\n\nSome body text.")]

/-- C3 counterexample to the claim as stated: with one unreadable document the
run does not complete and no feed is written (the result is the rejected
promise, not an output document omitting that document). -/
theorem c3_counterexample :
    scanBlogs fsC3 "/repo" = .ok ["/repo/2023/1/1/good.md", "/repo/2023/1/1/bad.md"] ∧
    fsC3.readFile "/repo/2023/1/1/good.md" = .ok "# Hello\n\nSome body text." ∧
    fsC3.readFile "/repo/2023/1/1/bad.md" = .error () ∧
    runMain fsC3 "/repo" "2025" "TS" 0 = .error () :=
  ⟨by decide, by decide, by decide, by decide⟩

/-- Closed witness for C3's amended theorem (same failing filesystem). -/
theorem c3_witness : runMain fsC3 "/repo" "2026" "TS2" 0 = .error () :=
  c3_read_failure_fatal fsC3 "/repo" "2026" "TS2" 0
    ["/repo/2023/1/1/good.md", "/repo/2023/1/1/bad.md"] (by decide)
    "/repo/2023/1/1/bad.md" (by decide) (by decide)

/-- First-occurrence replacement at a known position: when no character of the
part before the marker equals the marker's first character, the replacement
lands exactly at the marker. -/
theorem replaceFirstChars_marker (patTail ys repl : List Char) :
    ∀ xs : List Char, (∀ c ∈ xs, c ≠ '\x7b') →
      replaceFirstChars (xs ++ ('\x7b' :: patTail) ++ ys) ('\x7b' :: patTail) repl =
        xs ++ repl ++ ys := by
  intro xs
  induction xs with
  | nil =>
    intro _
    show replaceFirstChars ('\x7b' :: (patTail ++ ys)) ('\x7b' :: patTail) repl = repl ++ ys
    rw [replaceFirstChars]
    rw [if_pos (show ('\x7b' :: patTail).isPrefixOf ('\x7b' :: (patTail ++ ys)) = true from
      List.isPrefixOf_iff_prefix.mpr (List.prefix_append ('\x7b' :: patTail) ys))]
    show repl ++ List.drop ('\x7b' :: patTail).length (('\x7b' :: patTail) ++ ys) = repl ++ ys
    rw [List.drop_left]
  | cons c xs ih =>
    intro hxs
    have hc : c ≠ '\x7b' := hxs c (by simp)
    show replaceFirstChars (c :: (xs ++ ('\x7b' :: patTail) ++ ys)) ('\x7b' :: patTail) repl
      = c :: (xs ++ repl ++ ys)
    rw [replaceFirstChars]
    rw [if_neg ?_]
    · rw [ih (fun d hd => hxs d (by simp [hd]))]
    · intro hpre
      obtain ⟨t, ht⟩ := List.isPrefixOf_iff_prefix.mp hpre
      have hhead := congrArg (fun l => l.head?) ht
      simp only [List.cons_append, List.head?_cons, Option.some_inj] at hhead
      exact hc hhead.symm

/-- The template text before the year contains no opening brace. -/
theorem tplA_no_brace : ∀ c ∈ tplA.data, c ≠ '\x7b' := by decide

/-- The template text between year and timestamp contains no opening brace. -/
theorem tplB_no_brace : ∀ c ∈ tplB.data, c ≠ '\x7b' := by decide

/-- The template text between the two timestamps contains no opening brace. -/
theorem tplC_no_brace : ∀ c ∈ tplC.data, c ≠ '\x7b' := by decide

/-- The template text between the second timestamp and the placeholder
contains no opening brace. -/
theorem tplD_no_brace : ∀ c ∈ tplD.data, c ≠ '\x7b' := by decide

/-- Shape of a successful run: the output is the fixed template text with the
copyright year spliced in once, the build timestamp spliced in twice (the
`lastBuildDate` and channel `pubDate` fields), and the rendered entries
spliced in at the placeholder — provided the year and timestamp texts do not
themselves contain the placeholder's opening brace (true of every
`getFullYear`/`toUTCString` rendering). -/
theorem runMain_eq (fs : FS) (repoDir : String) (tz : Int) (y ts entries : String)
    (hents : feedEntries fs repoDir tz = .ok entries)
    (hy : ∀ c ∈ y.data, c ≠ '\x7b') (hts : ∀ c ∈ ts.data, c ≠ '\x7b') :
    runMain fs repoDir y ts tz =
      .ok (tplA ++ y ++ tplB ++ ts ++ tplC ++ ts ++ tplD ++ entries ++ tplE) := by
  unfold runMain
  rw [hents]
  show Except.ok (replaceFirst (rssTemplate y ts) entriesMarker entries) = _
  congr 1
  have hpre : ∀ c ∈ (tplA ++ y ++ tplB ++ ts ++ tplC ++ ts ++ tplD).data, c ≠ '\x7b' := by
    intro c hc
    simp only [String.data_append, List.mem_append] at hc
    rcases hc with ((((((h | h) | h) | h) | h) | h) | h)
    exacts [tplA_no_brace c h, hy c h, tplB_no_brace c h, hts c h, tplC_no_brace c h,
      hts c h, tplD_no_brace c h]
  have hdata : replaceFirstChars (rssTemplate y ts).data entriesMarker.data entries.data =
      (tplA ++ y ++ tplB ++ ts ++ tplC ++ ts ++ tplD ++ entries ++ tplE).data := by
    have hsplit : (rssTemplate y ts).data =
        (tplA ++ y ++ tplB ++ ts ++ tplC ++ ts ++ tplD).data ++
          ('\x7b' :: "blog_entries\x7d".data) ++ tplE.data := by
      unfold rssTemplate
      simp [String.data_append, List.append_assoc]
      rfl
    rw [hsplit,
      show entriesMarker.data = '\x7b' :: "blog_entries\x7d".data from rfl,
      replaceFirstChars_marker "blog_entries\x7d".data tplE.data entries.data _ hpre]
    simp [String.data_append, List.append_assoc]
  calc replaceFirst (rssTemplate y ts) entriesMarker entries
      = String.mk (replaceFirstChars (rssTemplate y ts).data entriesMarker.data
          entries.data) := rfl
    _ = String.mk ((tplA ++ y ++ tplB ++ ts ++ tplC ++ ts ++ tplD ++ entries ++
          tplE).data) := congrArg String.mk hdata
    _ = tplA ++ y ++ tplB ++ ts ++ tplC ++ ts ++ tplD ++ entries ++ tplE := rfl

/-- C9 (amended): two runs on the same unchanged input produce outputs that
are byte-identical except for the spliced clock values: the copyright year
and the build timestamp, the latter appearing in two fields (`lastBuildDate`
and the channel `pubDate`) — every other byte, including the whole rendered
entries section, is the same fixed text. -/
theorem c9_identical_except_clock_fields (fs : FS) (repoDir : String) (tz : Int)
    (y1 ts1 y2 ts2 entries : String)
    (hents : feedEntries fs repoDir tz = .ok entries)
    (hy1 : ∀ c ∈ y1.data, c ≠ '\x7b') (hts1 : ∀ c ∈ ts1.data, c ≠ '\x7b')
    (hy2 : ∀ c ∈ y2.data, c ≠ '\x7b') (hts2 : ∀ c ∈ ts2.data, c ≠ '\x7b') :
    runMain fs repoDir y1 ts1 tz =
      .ok (tplA ++ y1 ++ tplB ++ ts1 ++ tplC ++ ts1 ++ tplD ++ entries ++ tplE) ∧
    runMain fs repoDir y2 ts2 tz =
      .ok (tplA ++ y2 ++ tplB ++ ts2 ++ tplC ++ ts2 ++ tplD ++ entries ++ tplE) :=
  ⟨runMain_eq fs repoDir tz y1 ts1 entries hents hy1 hts1,
    runMain_eq fs repoDir tz y2 ts2 entries hents hy2 hts2⟩

/-- Empty repository root: scans to no documents, entries render to "". -/
def fsEmptyRepo : FS := fsOfLists [("/repo", [])] []

/-- Closed witness for C9 at the empty repository and two concrete build
instants one day apart. -/
theorem c9_witness :
    runMain fsEmptyRepo "/repo" "2025" "Wed, 01 Jan 2025 00:00:00 GMT" 0 =
      .ok (tplA ++ "2025" ++ tplB ++ "Wed, 01 Jan 2025 00:00:00 GMT" ++ tplC ++
        "Wed, 01 Jan 2025 00:00:00 GMT" ++ tplD ++ "" ++ tplE) ∧
    runMain fsEmptyRepo "/repo" "2025" "Thu, 02 Jan 2025 00:00:00 GMT" 0 =
      .ok (tplA ++ "2025" ++ tplB ++ "Thu, 02 Jan 2025 00:00:00 GMT" ++ tplC ++
        "Thu, 02 Jan 2025 00:00:00 GMT" ++ tplD ++ "" ++ tplE) :=
  c9_identical_except_clock_fields fsEmptyRepo "/repo" 0 "2025"
    "Wed, 01 Jan 2025 00:00:00 GMT" "2025" "Thu, 02 Jan 2025 00:00:00 GMT" ""
    (by decide) (by decide) (by decide) (by decide) (by decide)

/-- C9 counterexample to the claim as stated: two runs on the same (empty)
input at build instants one day apart differ in TWO lines of the output — the
`lastBuildDate` line and the channel `pubDate` line — not in a single
build-timestamp field; every other line is identical (exactly 2 of the
zipped line pairs differ). -/
theorem c9_counterexample :
    ∃ o1 o2 : String,
      runMain fsEmptyRepo "/repo" "2025" "Wed, 01 Jan 2025 00:00:00 GMT" 0 = .ok o1 ∧
      runMain fsEmptyRepo "/repo" "2025" "Thu, 02 Jan 2025 00:00:00 GMT" 0 = .ok o2 ∧
      (splitOnChar '\n' o1.data).getD 7 [] =
        " <lastBuildDate>Wed, 01 Jan 2025 00:00:00 GMT</lastBuildDate>".data ∧
      (splitOnChar '\n' o2.data).getD 7 [] =
        " <lastBuildDate>Thu, 02 Jan 2025 00:00:00 GMT</lastBuildDate>".data ∧
      (splitOnChar '\n' o1.data).getD 8 [] =
        " <pubDate>Wed, 01 Jan 2025 00:00:00 GMT</pubDate>".data ∧
      (splitOnChar '\n' o2.data).getD 8 [] =
        " <pubDate>Thu, 02 Jan 2025 00:00:00 GMT</pubDate>".data ∧
      ((List.zip (splitOnChar '\n' o1.data) (splitOnChar '\n' o2.data)).filter
        (fun p => !(p.1 == p.2))).length = 2 ∧
      (splitOnChar '\n' o1.data).length = (splitOnChar '\n' o2.data).length :=
  ⟨replaceFirst (rssTemplate "2025" "Wed, 01 Jan 2025 00:00:00 GMT") entriesMarker "",
    replaceFirst (rssTemplate "2025" "Thu, 02 Jan 2025 00:00:00 GMT") entriesMarker "",
    by decide, by decide, by decide, by decide, by decide, by decide, by decide, by decide⟩

/-- One atomic step of the final output write. -/
inductive WriteStep where
  | truncate : WriteStep
  | writeChunk : String → WriteStep

/-- Modelled from the spec: the final `fs.writeFile(feedPath, rssFeed)` of the
source writes DIRECTLY to the destination — it opens the output path with
truncation and then writes the data, the semantics spec 7 tells implementers
to avoid ("write to a temporary location and move into place, or otherwise
avoid truncating the destination before the full document is ready"). There
is no temporary file and no rename step in the source. -/
def writeFileSteps (content : String) : List WriteStep :=
  [WriteStep.truncate, WriteStep.writeChunk content]

/-- Effect of one write step on the destination's content. -/
def applyWriteStep (dest : String) : WriteStep → String
  | WriteStep.truncate => ""
  | WriteStep.writeChunk d => dest ++ d

/-- Destination content after the first `completed` steps of a write have
executed (a write that fails partway completes only a prefix). -/
def destAfter (prior : String) (steps : List WriteStep) (completed : Nat) : String :=
  (steps.take completed).foldl applyWriteStep prior

/-- C6 (amended): a completed write fully replaces any prior content of the
output path — but the write is direct (truncate, then write), so a write that
fails after truncating leaves the destination EMPTY, not with its prior
content: there is no temporary-file-and-rename protection. -/
theorem c6_write_replaces_but_truncates (prior content : String) (h : prior ≠ "") :
    destAfter prior (writeFileSteps content) 2 = content ∧
    destAfter prior (writeFileSteps content) 1 ≠ prior := by
  constructor
  · show ("" : String) ++ content = content
    rfl
  · show ("" : String) ≠ prior
    exact fun he => h he.symm

/-- Closed witness for C6's amended theorem at concrete prior content. -/
theorem c6_witness :
    destAfter "old feed" (writeFileSteps "new feed") 2 = "new feed" ∧
    destAfter "old feed" (writeFileSteps "new feed") 1 ≠ "old feed" :=
  c6_write_replaces_but_truncates "old feed" "new feed" (by decide)

/-- C6 counterexample to the claim as stated: with prior content `"old"`, a
direct write of `"new"` that fails right after the truncation step leaves the
destination empty — neither the prior content (contradicting "prior content
left unchanged") nor the full new document. -/
theorem c6_counterexample :
    destAfter "old" (writeFileSteps "new") 1 = "" ∧
    ("" : String) ≠ "old" ∧ ("" : String) ≠ "new" :=
  ⟨rfl, by decide, by decide⟩
